import Mathlib

/-!
Verification of the `filetool` append engine against its specification.

The development shallowly embeds the core of `filetool/filetool.py`:
byte strings are lists of natural numbers (one per byte), the streaming
splitter `splitlines_bytes` (with its per-segment worker `process_line`),
the chunked substring scanner `find_bytes_offset_in_stream`, and the
dedup-and-append decision core of `ensure_bytes_present` acting on a file
content passed explicitly.  Recursions that the Python code drives by an
index into a shrinking buffer are given a byte-count fuel argument equal to
the buffer length so that every definition is structurally recursive and
kernel-reducible; fuel-sufficiency lemmas recover the clean recursion
equations.
-/

namespace Filetool

/-- Byte strings are modelled as lists of natural numbers, one per byte. -/
abbrev Bytes := List Nat

/-- Python `data.find(t)` (for `bytes`): the index of the first occurrence of
`t` as a contiguous substring of `data`, or `none` where Python returns `-1`.
As in Python, an empty needle is found at index 0. -/
def bfind (data t : Bytes) : Option Nat :=
  match data with
  | [] => if t = [] then some 0 else none
  | b :: rest =>
    if (b :: rest).take t.length = t then some 0
    else (bfind rest t).map (fun i => i + 1)

/-- `t` occurs in `data` at position `p` (a full occurrence: the slice of
length `t.length` starting at `p` equals `t`). -/
def occAt (t data : Bytes) (p : Nat) : Prop := (data.drop p).take t.length = t

/-- Python `needle in haystack` for `bytes`: substring containment. -/
def substrB (needle haystack : Bytes) : Bool := (bfind haystack needle).isSome

/-- Python `l.endswith(suf)` for `bytes`. -/
def endsWithB (l suf : Bytes) : Bool := decide (l.drop (l.length - suf.length) = suf)

/-- The six ASCII whitespace bytes stripped by Python `bytes.strip` and
friends: space, tab, linefeed, carriage return, vertical tab, form feed.
This is the source's `strip_bytes = b" \t\n\r\x0b\x0c"` (line 241). -/
def stripBytes : Bytes := [32, 9, 10, 13, 11, 12]

/-- Membership in the ASCII whitespace set used by `bytes.lstrip`/`rstrip`. -/
def isSpaceByte (b : Nat) : Bool :=
  b == 32 || b == 9 || b == 10 || b == 13 || b == 11 || b == 12

/-- Python `l.lstrip()` for `bytes`. -/
def lstripB (l : Bytes) : Bytes := l.dropWhile isSpaceByte

/-- Python `l.rstrip()` for `bytes`. -/
def rstripB (l : Bytes) : Bytes := (l.reverse.dropWhile isSpaceByte).reverse

/-- The guard `comment_marker and comment_marker in line` of
`process_line` (source line 248): the marker is set, truthy (non-empty)
and occurs in the line. -/
def cmHitB : Option Bytes → Bytes → Bool
  | none, _ => false
  | some m, line => if m = [] then false else substrB m line

/-- Python `line.split(comment_marker)[0]` under the guard that the marker
occurs in the line: the portion of the line before the first occurrence. -/
def beforeMarker : Option Bytes → Bytes → Bytes
  | none, line => line
  | some m, line =>
    match bfind line m with
    | some i => line.take i
    | none => line

/-- The comment-stripping step of `process_line` (source lines 247-251):
if the marker is set, truthy and occurs in the line, keep the part before
its first occurrence, re-appending the delimiter when the original line
ended with it. -/
def comment_stage (delim : Bytes) (cm : Option Bytes) (line : Bytes) : Bytes :=
  if cmHitB cm line then
    let p := beforeMarker cm line
    if endsWithB line delim then p ++ delim else p
  else line

/-- The leading-whitespace step of `process_line` (source lines 253-259),
applied to the result `l1` of the comment stage; the `endswith` test is on
the original line. -/
def lead_stage (delim : Bytes) (sl : Bool) (line l1 : Bytes) : Bytes :=
  if sl then
    if endsWithB line delim then
      let s := lstripB l1
      if s.length = 0 then s ++ delim else s
    else lstripB l1
  else l1

/-- The trailing-whitespace step of `process_line` (source lines 260-264),
applied to the result `l2` of the previous stages.
`re_add_delim = delim in strip_bytes` (source line 242). -/
def trail_stage (delim : Bytes) (st : Bool) (l2 : Bytes) : Bytes :=
  if st then
    if substrB delim stripBytes then rstripB l2 ++ delim else rstripB l2
  else l2

/-- The inner worker `process_line` of `splitlines_bytes`
(source lines 246-274), applied to one raw delimiter-terminated segment
(or the trailing delimiter-less remainder): the three rewriting stages in
source order, then the three `return None` guards on the current value
(source lines 265-272).  `none` models `return None` (the segment is
dropped). -/
def process_line (delim : Bytes) (cm : Option Bytes) (sl st : Bool)
    (line : Bytes) : Option Bytes :=
  let cmHit := cmHitB cm line
  let l3 := trail_stage delim st (lead_stage delim sl line (comment_stage delim cm line))
  if st ∧ l3 = [] then none
  else if sl ∧ l3 = [] then none
  else if cmHit ∧ l3 = [] then none
  else some l3

/-- The raw segmentation loop of `splitlines_bytes` on an in-memory buffer
(source lines 276-292), before `process_line` is applied: repeatedly find
the delimiter, cut the segment including it, and finally emit the non-empty
remainder.  The fuel argument makes the recursion structural; it is set to
the buffer length by `splitlines_raw`, which always suffices because each
step consumes at least one byte (the delimiter is non-empty everywhere this
is called). -/
def splitlines_go (delim : Bytes) : Nat → Bytes → List Bytes
  | 0, data => if data = [] then [] else [data]
  | fuel + 1, data =>
    match bfind data delim with
    | none => if data = [] then [] else [data]
    | some i =>
      data.take (i + delim.length) :: splitlines_go delim fuel (data.drop (i + delim.length))

/-- Raw (unprocessed) segments of a byte buffer. -/
def splitlines_raw (delim data : Bytes) : List Bytes :=
  splitlines_go delim data.length data

/-- The processed segments yielded by `splitlines_bytes` on an in-memory
buffer: each raw segment is passed through `process_line`, and segments for
which it returns `None` are dropped. -/
def splitlines_list (delim : Bytes) (cm : Option Bytes) (sl st : Bool)
    (data : Bytes) : List Bytes :=
  (splitlines_raw delim data).filterMap (process_line delim cm sl st)

/-- The up-front validation of `splitlines_bytes` (source lines 226-239),
in source order.  The `isinstance` type check is static in this embedding. -/
def splitlines_validate (delim : Bytes) (cm : Option Bytes) : Option String :=
  if delim = [] then some "delim must not be empty"
  else
    match cm with
    | none => none
    | some m =>
      if m = [] then some "comment_marker must not be empty"
      else if m = delim then some "comment_marker can not match delim"
      else if substrB delim m then some "delim must not be contained in comment_marker"
      else none

/-- `splitlines_bytes` on an in-memory byte buffer: validation, then the
processed segments. -/
def splitlines_bytes (delim : Bytes) (cm : Option Bytes) (sl st : Bool)
    (data : Bytes) : Except String (List Bytes) :=
  match splitlines_validate delim cm with
  | some e => .error e
  | none => .ok (splitlines_list delim cm sl st data)

/-- The inner extraction loop of the streaming branch of `splitlines_bytes`
(source lines 299-308): cut every complete delimiter-terminated segment off
the front of the buffer and return them together with the remainder (which
contains no delimiter occurrence).  Fuel as in `splitlines_go`. -/
def extract_go (delim : Bytes) : Nat → Bytes → List Bytes × Bytes
  | 0, buffer => ([], buffer)
  | fuel + 1, buffer =>
    match bfind buffer delim with
    | none => ([], buffer)
    | some i =>
      let r := extract_go delim fuel (buffer.drop (i + delim.length))
      (buffer.take (i + delim.length) :: r.1, r.2)

/-- Complete segments and remainder of a buffer. -/
def extract_segs (delim buffer : Bytes) : List Bytes × Bytes :=
  extract_go delim buffer.length buffer

/-- The post-loop handling of the streaming branch (source lines 310-313):
the final non-empty buffer is processed once as a trailing segment. -/
def finalizeBuf (delim : Bytes) (cm : Option Bytes) (sl st : Bool)
    (buffer : Bytes) : List Bytes :=
  if buffer = [] then [] else (process_line delim cm sl st buffer).toList

/-- The streaming branch of `splitlines_bytes` (source lines 293-313): the
stream is a list of chunks; an empty chunk means end of stream (`if not
chunk: break`); each chunk is appended to the carry buffer, complete
segments are processed and yielded, and the final buffer is processed once. -/
def splitlines_stream_go (delim : Bytes) (cm : Option Bytes) (sl st : Bool) :
    Bytes → List Bytes → List Bytes
  | buffer, [] => finalizeBuf delim cm sl st buffer
  | buffer, c :: rest =>
    if c = [] then finalizeBuf delim cm sl st buffer
    else
      let r := extract_segs delim (buffer ++ c)
      r.1.filterMap (process_line delim cm sl st) ++
        splitlines_stream_go delim cm sl st r.2 rest

/-- `splitlines_bytes` on a chunked stream. -/
def splitlines_bytes_stream (delim : Bytes) (cm : Option Bytes) (sl st : Bool)
    (chunks : List Bytes) : Except String (List Bytes) :=
  match splitlines_validate delim cm with
  | some e => .error e
  | none => .ok (splitlines_stream_go delim cm sl st [] chunks)

/-- Split a byte string into consecutive chunks of `size` bytes (the last
chunk may be shorter): the sequence of reads `stream.read(size)` returns on
a stream holding `data`.  Fuel as in `splitlines_go`; it suffices whenever
`size > 0`. -/
def chunksOf_go (size : Nat) : Nat → Bytes → List Bytes
  | 0, data => if data = [] then [] else [data]
  | fuel + 1, data =>
    if data = [] then [] else data.take size :: chunksOf_go size fuel (data.drop size)

/-- The chunk sequence a binary stream holding `data` yields for reads of
`size` bytes. -/
def chunksOf (size : Nat) (data : Bytes) : List Bytes :=
  chunksOf_go size data.length data

/-- The scan loop of `find_bytes_offset_in_stream` (source lines 440-457):
`previous` is the carry-over (the trailing `len(target) - 1` bytes seen so
far), `offset` the count of consumed bytes (a Python `int`, hence `Int`).
On a match in `previous ++ chunk` at `pos` the absolute offset
`offset - len(previous) + pos` is returned. -/
def fbois_go (target : Bytes) : Bytes → Int → List Bytes → Option Int
  | _, _, [] => none
  | previous, offset, chunk :: rest =>
    if chunk = [] then none
    else
      let haystack := previous ++ chunk
      match bfind haystack target with
      | some pos => some (offset - previous.length + pos)
      | none =>
        let overlap := target.length - 1
        fbois_go target
          (if overlap = 0 then [] else haystack.drop (haystack.length - overlap))
          (offset + chunk.length) rest

/-- `find_bytes_offset_in_stream` (source lines 417-457) over the chunk
sequence the stream yields: configuration error on an empty target,
otherwise the offset of the first occurrence or `none`. -/
def find_bytes_offset_in_stream (target : Bytes) (chunks : List Bytes) :
    Except String (Option Int) :=
  if target = [] then .error "Target bytes must not be empty"
  else .ok (fbois_go target [] 0 chunks)

/-- Propositional equality on `Except` results is decidable when it is on
both components; used to evaluate the embedded operations on concrete
inputs. -/
instance exceptDecEq {e a : Type} [DecidableEq e] [DecidableEq a] :
    DecidableEq (Except e a) := fun x y =>
  match x, y with
  | .ok v, .ok w =>
    if h : v = w then .isTrue (by rw [h])
    else .isFalse (by intro hc; cases hc; exact h rfl)
  | .error v, .error w =>
    if h : v = w then .isTrue (by rw [h])
    else .isFalse (by intro hc; cases hc; exact h rfl)
  | .ok _, .error _ => .isFalse (by intro hc; cases hc)
  | .error _, .ok _ => .isFalse (by intro hc; cases hc)

/-- The keyword arguments of `ensure_bytes_present` that affect its
decision logic (the `path` is replaced by the explicit file content below). -/
structure EnsureArgs where
  bytes_payload : Bytes
  unique_bytes : Bool
  create_if_missing : Bool
  make_parents : Bool
  line_ending : Option Bytes
  comment_marker : Option Bytes
  ignore_leading_whitespace : Bool
  ignore_trailing_whitespace : Bool
deriving DecidableEq

/-- The value-level checks `validate_args` performs for
`ensure_bytes_present`'s constraint table (source lines 356-414 and
503-556), in source order: the constraints dictionary is iterated in
insertion order, then the conflict table is applied.  `isinstance` type
checks are static here.  Note that in the source the `requires_if` rule on
`make_parents` is dead code (it is nested under a lookup of a `requires`
key that `make_parents` does not have); the `make_parents`/
`create_if_missing` combination is actually rejected by the conflict
table, which runs after the constraint loop. -/
def ensure_validate (a : EnsureArgs) : Option String :=
  if a.bytes_payload = [] then
    some "ensure_bytes_present() bytes_payload must not be empty"
  else if a.line_ending = some [] then
    some "ensure_bytes_present() line_ending must not be empty if set"
  else if a.line_ending.isSome ∧ a.unique_bytes = false then
    some "ensure_bytes_present() line_ending requires unique_bytes=True"
  else if a.comment_marker = some [] then
    some "ensure_bytes_present() comment_marker must not be empty if set"
  else if a.comment_marker.isSome ∧ a.unique_bytes = false then
    some "ensure_bytes_present() comment_marker requires unique_bytes=True"
  else if a.ignore_leading_whitespace ∧ a.unique_bytes = false then
    some "ensure_bytes_present() ignore_leading_whitespace=True requires unique_bytes=True"
  else if a.ignore_trailing_whitespace ∧ a.unique_bytes = false then
    some "ensure_bytes_present() ignore_trailing_whitespace=True requires unique_bytes=True"
  else if a.make_parents ∧ a.create_if_missing = false then
    some "ensure_bytes_present() make_parents=True requires create_if_missing=True"
  else none

/-- The manual check after `validate_args` (source lines 558-560):
`comment_marker is not None and comment_marker == line_ending`.  When
`line_ending` is `None` the Python comparison `bytes == None` is `False`. -/
def marker_matches_delim (a : EnsureArgs) : Bool :=
  match a.comment_marker, a.line_ending with
  | some m, some l => decide (m = l)
  | _, _ => false

/-- Outcome of one `ensure_bytes_present` call on a file with a given
content.  `preIOError` models an exception raised before any file-system
access (before source line 562: before `mkdir`, before the lock file is
opened and before the target is opened); `ioError` models an exception
raised inside the locked section (it still propagates to the caller, with
the locks released by the enclosing `finally`/context managers); `ok`
carries the new file content and the returned byte count. -/
inductive EnsureOutcome where
  | preIOError (msg : String)
  | ioError (msg : String)
  | ok (content : Bytes) (written : Nat)
deriving DecidableEq

/-- Whether an outcome is an error raised before any I/O. -/
def isPreIOError : EnsureOutcome → Bool
  | .preIOError _ => true
  | _ => false

/-- The decision core of `ensure_bytes_present` (source lines 460-605)
acting on the target's current content: validation, the manual
marker/delimiter check, then under the locks either the line-mode dedup
(the splitter streamed over the handle in chunks of the default 8192
bytes), the binary-mode substring scan (chunk size 8192, source line 594),
or the unconditional append.  A write appends the payload at the end and
returns its length. -/
def ensure_bytes_present (a : EnsureArgs) (content : Bytes) : EnsureOutcome :=
  match ensure_validate a with
  | some e => .preIOError e
  | none =>
    if marker_matches_delim a then .preIOError "comment_marker can not match delim"
    else
      if a.unique_bytes then
        match a.line_ending with
        | some le =>
          match splitlines_bytes_stream le a.comment_marker
              a.ignore_leading_whitespace a.ignore_trailing_whitespace
              (chunksOf 8192 content) with
          | .error e => .ioError e
          | .ok segs =>
            if a.bytes_payload ∈ segs then .ok content 0
            else .ok (content ++ a.bytes_payload) a.bytes_payload.length
        | none =>
          match find_bytes_offset_in_stream a.bytes_payload (chunksOf 8192 content) with
          | .error e => .ioError e
          | .ok (some _) => .ok content 0
          | .ok none => .ok (content ++ a.bytes_payload) a.bytes_payload.length
      else .ok (content ++ a.bytes_payload) a.bytes_payload.length

/-- The file content an `ensure_bytes_present` outcome leaves behind
(for an error outcome nothing was written, so the content is unchanged). -/
def outcome_content (r : EnsureOutcome) (fallback : Bytes) : Bytes :=
  match r with
  | .ok c _ => c
  | _ => fallback

/-- The target's content after one `ensure_bytes_present` call. -/
def after_ensure (a : EnsureArgs) (content : Bytes) : Bytes :=
  outcome_content (ensure_bytes_present a content) content

/-- Actions the cleanup path of `locked_file_handle` (source lines 172-187)
can perform.  `descriptorCloseCall` (an `os.close(fd)` escalation) is part
of the alphabet so that its absence from every trace is expressible. -/
inductive CleanupAction where
  | unlockCall
  | unlockWarning
  | closeCall
  | cleanupWarning
  | descriptorCloseCall
deriving DecidableEq

/-- The action trace of the `finally` block of `locked_file_handle`
(source lines 172-187) as a function of how the cleanup syscalls behave:
if the handle is still open, `flock(fd, LOCK_UN)` is attempted and a
failure only prints a warning; then `fh.close()` is attempted; an
exception from it is caught by the outer `except`, which prints a warning
and does nothing else.  The source contains no lower-level `os.close`
escalation. -/
def cleanup_trace (already_closed unlock_fails close_fails : Bool) :
    List CleanupAction :=
  let unlocking :=
    if already_closed then []
    else if unlock_fails then [CleanupAction.unlockCall, CleanupAction.unlockWarning]
    else [CleanupAction.unlockCall]
  let closing := [CleanupAction.closeCall]
  if close_fails then unlocking ++ closing ++ [CleanupAction.cleanupWarning]
  else unlocking ++ closing

/-- Result of a blocking syscall as seen by the caller of the wrapping
Python code: either it completed, or an `InterruptedError` (EINTR)
propagated out. -/
inductive SysResult where
  | ok
  | eintrRaised
deriving DecidableEq

/-- A call site wrapped in a `while True: ... except EINTR: continue` retry
loop (`open_eintr_safe`, `fsync_eintr_safe`, and the `flock` loop of
`locked_file_handle`, source lines 46-63 and 150-162), evaluated on the
number of consecutive EINTR interruptions the underlying syscall reports
before succeeding: the loop absorbs them all. -/
def retry_loop : Nat → SysResult
  | 0 => .ok
  | n + 1 => retry_loop n

/-- A bare syscall with no retry wrapper: the first EINTR propagates. -/
def bare_syscall : Nat → SysResult
  | 0 => .ok
  | _ + 1 => .eintrRaised

/-- The named-lock acquisition of `ensure_bytes_present` (source lines
566-570): the lock file is opened via `open_with_mode`, which delegates to
`open_eintr_safe` (retried), but the subsequent
`fcntl.flock(lock_fd, fcntl.LOCK_EX)` at line 570 is a bare call with no
retry loop, unlike the target-handle `flock` in `locked_file_handle`. -/
def named_lock_acquire (open_eintrs flock_eintrs : Nat) : SysResult :=
  match retry_loop open_eintrs with
  | .ok => bare_syscall flock_eintrs
  | r => r


/-! ### Basic lemmas: `bfind` finds the first full occurrence -/

theorem occAt_nil_iff {t : Bytes} {p : Nat} : occAt t [] p ↔ t = [] := by
  simp [occAt, eq_comm]

theorem occAt_cons_succ {t : Bytes} {b : Nat} {rest : Bytes} {p : Nat} :
    occAt t (b :: rest) (p + 1) ↔ occAt t rest p := by
  simp [occAt]

theorem bfind_eq_some_iff {data t : Bytes} {i : Nat} :
    bfind data t = some i ↔ occAt t data i ∧ ∀ j, j < i → ¬ occAt t data j := by
  induction data generalizing i with
  | nil =>
    by_cases ht : t = []
    · subst ht
      simp only [bfind, if_pos rfl]
      constructor
      · intro h
        cases h
        exact ⟨by simp [occAt], by omega⟩
      · rintro ⟨-, hmin⟩
        rcases Nat.eq_zero_or_pos i with h0 | h0
        · simp [h0]
        · exact absurd (show occAt ([] : Bytes) [] 0 by simp [occAt]) (hmin 0 h0)
    · have hb : bfind ([] : Bytes) t = none := by simp [bfind, ht]
      rw [hb]
      simp [occAt_nil_iff, ht]
  | cons b rest ih =>
    by_cases h0 : (b :: rest).take t.length = t
    · simp only [bfind, if_pos h0]
      constructor
      · intro h
        cases h
        refine ⟨h0, by omega⟩
      · rintro ⟨hocc, hmin⟩
        rcases Nat.eq_zero_or_pos i with hz | hp
        · simp [hz]
        · exact absurd h0 (by simpa [occAt] using hmin 0 hp)
    · simp only [bfind, if_neg h0, Option.map_eq_some']
      constructor
      · rintro ⟨i0, hfind, rfl⟩
        obtain ⟨hocc, hmin⟩ := ih.mp hfind
        refine ⟨occAt_cons_succ.mpr hocc, ?_⟩
        intro j hj
        cases j with
        | zero => simpa [occAt] using h0
        | succ q =>
          rw [occAt_cons_succ]
          exact hmin q (by omega)
      · rintro ⟨hocc, hmin⟩
        cases i with
        | zero => exact absurd (by simpa [occAt] using hocc) h0
        | succ p =>
          refine ⟨p, ih.mpr ⟨occAt_cons_succ.mp hocc, ?_⟩, rfl⟩
          intro q hq
          have := hmin (q + 1) (by omega)
          rw [occAt_cons_succ] at this
          exact this

theorem bfind_eq_none_iff {data t : Bytes} :
    bfind data t = none ↔ ∀ j, ¬ occAt t data j := by
  induction data with
  | nil =>
    by_cases ht : t = []
    · simp [bfind, ht, occAt_nil_iff]
    · have hb : bfind ([] : Bytes) t = none := by simp [bfind, ht]
      rw [hb]
      simp [occAt_nil_iff, ht]
  | cons b rest ih =>
    by_cases h0 : (b :: rest).take t.length = t
    · simp only [bfind, if_pos h0]
      constructor
      · intro h; cases h
      · intro h
        exact absurd h0 (by simpa [occAt] using h 0)
    · simp only [bfind, if_neg h0, Option.map_eq_none', ih]
      constructor
      · intro h j
        cases j with
        | zero => simpa [occAt] using h0
        | succ q => rw [occAt_cons_succ]; exact h q
      · intro h q
        have := h (q + 1)
        rw [occAt_cons_succ] at this
        exact this

theorem occAt_add_length_le {t data : Bytes} {p : Nat} (ht : t ≠ [])
    (h : occAt t data p) : p + t.length ≤ data.length := by
  have hlen : min t.length (data.length - p) = t.length := by
    simpa using congrArg List.length h
  have hpos : 0 < t.length := List.length_pos.mpr ht
  omega

theorem occAt_append_of_fit {t x y : Bytes} {p : Nat}
    (hfit : p + t.length ≤ x.length) :
    occAt t (x ++ y) p ↔ occAt t x p := by
  unfold occAt
  rw [List.drop_append_of_le_length (by omega),
    List.take_append_of_le_length (by simp [List.length_drop]; omega)]

theorem occAt_append_right_iff {t x y : Bytes} {p : Nat} (hp : x.length ≤ p) :
    occAt t (x ++ y) p ↔ occAt t y (p - x.length) := by
  unfold occAt
  rw [List.drop_append_eq_append_drop, List.drop_eq_nil_of_le hp,
    List.nil_append]

theorem occAt_append_right {t x y : Bytes} {p : Nat}
    (h : occAt t y p) : occAt t (x ++ y) (x.length + p) := by
  rw [occAt_append_right_iff (by omega)]
  simpa using h

theorem bfind_append_of_some {t x y : Bytes} {i : Nat} (ht : t ≠ [])
    (h : bfind x t = some i) : bfind (x ++ y) t = some i := by
  obtain ⟨hocc, hmin⟩ := bfind_eq_some_iff.mp h
  have hfit : i + t.length ≤ x.length := occAt_add_length_le ht hocc
  refine bfind_eq_some_iff.mpr ⟨(occAt_append_of_fit hfit).mpr hocc, ?_⟩
  intro j hj hoccj
  have hfitj : j + t.length ≤ x.length := by omega
  exact hmin j hj ((occAt_append_of_fit hfitj).mp hoccj)

theorem occAt_of_take {t l : Bytes} {i q : Nat}
    (h : occAt t (l.take i) q) : occAt t l q := by
  unfold occAt at h ⊢
  rw [List.drop_take] at h
  rw [List.take_take] at h
  have hlen := congrArg List.length h
  simp [List.length_take, List.length_drop] at hlen
  by_cases htl : t.length ≤ i - q
  · rwa [min_eq_left htl] at h
  · rw [min_eq_right (by omega)] at h
    have h2 : (l.drop q).take (i - q) = t := h
    have h3 : t.length ≤ i - q := by
      have := congrArg List.length h2
      simp [List.length_take, List.length_drop] at this
      omega
    omega

theorem occAt_of_drop {t l : Bytes} {k q : Nat}
    (h : occAt t (l.drop k) q) : occAt t l (k + q) := by
  unfold occAt at h ⊢
  rwa [List.drop_drop] at h

theorem endsWithB_occAt {l d : Bytes} (h : endsWithB l d = true) :
    occAt d l (l.length - d.length) := by
  unfold endsWithB at h
  have hd : l.drop (l.length - d.length) = d := of_decide_eq_true h
  unfold occAt
  rw [hd, List.take_length]

theorem dropWhile_eq_drop (p : Nat → Bool) (l : Bytes) :
    ∃ k, l.dropWhile p = l.drop k := by
  induction l with
  | nil => exact ⟨0, rfl⟩
  | cons a l ih =>
    by_cases h : p a
    · obtain ⟨k, hk⟩ := ih
      exact ⟨k + 1, by simp [List.dropWhile_cons, h, hk]⟩
    · exact ⟨0, by simp [List.dropWhile_cons, h]⟩


theorem bfind_some_bound {data t : Bytes} {i : Nat} (ht : t ≠ [])
    (h : bfind data t = some i) : i + t.length ≤ data.length :=
  occAt_add_length_le ht (bfind_eq_some_iff.mp h).1

theorem bfind_nil_of_ne {t : Bytes} (ht : t ≠ []) : bfind [] t = none := by
  simp [bfind, ht]

/-! ### Recursion equations for the fueled splitter loops -/

theorem splitlines_go_fuel {delim : Bytes} (hd : delim ≠ []) :
    ∀ f g data, data.length ≤ f → data.length ≤ g →
      splitlines_go delim f data = splitlines_go delim g data := by
  intro f
  induction f with
  | zero =>
    intro g data hf _
    have : data = [] := List.eq_nil_of_length_eq_zero (by omega)
    subst this
    cases g with
    | zero => rfl
    | succ g => simp [splitlines_go, bfind_nil_of_ne hd]
  | succ f ih =>
    intro g data hf hg
    cases g with
    | zero =>
      have : data = [] := List.eq_nil_of_length_eq_zero (by omega)
      subst this
      simp [splitlines_go, bfind_nil_of_ne hd]
    | succ g =>
      cases hb : bfind data delim with
      | none => simp only [splitlines_go, hb]
      | some i =>
        have hbound := bfind_some_bound hd hb
        have hdpos : 0 < delim.length := List.length_pos.mpr hd
        have hlen : (data.drop (i + delim.length)).length ≤ f := by
          simp [List.length_drop]
          omega
        have hlen2 : (data.drop (i + delim.length)).length ≤ g := by
          simp [List.length_drop]
          omega
        simp only [splitlines_go, hb]
        rw [ih g (data.drop (i + delim.length)) hlen hlen2]

theorem splitlines_raw_eq {delim : Bytes} (hd : delim ≠ []) (data : Bytes) :
    splitlines_raw delim data =
      match bfind data delim with
      | none => if data = [] then [] else [data]
      | some i =>
        data.take (i + delim.length) ::
          splitlines_raw delim (data.drop (i + delim.length)) := by
  unfold splitlines_raw
  cases hl : data.length with
  | zero =>
    have : data = [] := List.eq_nil_of_length_eq_zero hl
    subst this
    simp [splitlines_go, bfind_nil_of_ne hd]
  | succ n =>
    cases hb : bfind data delim with
    | none => simp only [splitlines_go, hb]
    | some i =>
      have hbound := bfind_some_bound hd hb
      have hdpos : 0 < delim.length := List.length_pos.mpr hd
      simp only [splitlines_go, hb]
      rw [splitlines_go_fuel hd n (data.drop (i + delim.length)).length
        (data.drop (i + delim.length)) (by simp [List.length_drop]; omega) (by simp)]

theorem extract_go_fuel {delim : Bytes} (hd : delim ≠ []) :
    ∀ f g data, data.length ≤ f → data.length ≤ g →
      extract_go delim f data = extract_go delim g data := by
  intro f
  induction f with
  | zero =>
    intro g data hf _
    have : data = [] := List.eq_nil_of_length_eq_zero (by omega)
    subst this
    cases g with
    | zero => rfl
    | succ g => simp [extract_go, bfind_nil_of_ne hd]
  | succ f ih =>
    intro g data hf hg
    cases g with
    | zero =>
      have : data = [] := List.eq_nil_of_length_eq_zero (by omega)
      subst this
      simp [extract_go, bfind_nil_of_ne hd]
    | succ g =>
      cases hb : bfind data delim with
      | none => simp only [extract_go, hb]
      | some i =>
        have hbound := bfind_some_bound hd hb
        have hdpos : 0 < delim.length := List.length_pos.mpr hd
        simp only [extract_go, hb]
        rw [ih g (data.drop (i + delim.length))
          (by simp [List.length_drop]; omega) (by simp [List.length_drop]; omega)]

theorem extract_segs_eq {delim : Bytes} (hd : delim ≠ []) (buffer : Bytes) :
    extract_segs delim buffer =
      match bfind buffer delim with
      | none => ([], buffer)
      | some i =>
        let r := extract_segs delim (buffer.drop (i + delim.length))
        (buffer.take (i + delim.length) :: r.1, r.2) := by
  unfold extract_segs
  cases hl : buffer.length with
  | zero =>
    have : buffer = [] := List.eq_nil_of_length_eq_zero hl
    subst this
    simp [extract_go, bfind_nil_of_ne hd]
  | succ n =>
    cases hb : bfind buffer delim with
    | none => simp only [extract_go, hb]
    | some i =>
      have hbound := bfind_some_bound hd hb
      have hdpos : 0 < delim.length := List.length_pos.mpr hd
      simp only [extract_go, hb]
      rw [extract_go_fuel hd n (buffer.drop (i + delim.length)).length
        (buffer.drop (i + delim.length)) (by simp [List.length_drop]; omega) (by simp)]

/-! ### The raw segmentation loses no bytes -/

theorem splitlines_go_flatten (delim : Bytes) :
    ∀ fuel data, (splitlines_go delim fuel data).flatten = data := by
  intro fuel
  induction fuel with
  | zero =>
    intro data
    by_cases h : data = [] <;> simp [splitlines_go, h]
  | succ fuel ih =>
    intro data
    cases hb : bfind data delim with
    | none => simp only [splitlines_go, hb]; by_cases h : data = [] <;> simp [h]
    | some i => simp only [splitlines_go, hb]; simp [ih, List.take_append_drop]

theorem splitlines_raw_flatten (delim data : Bytes) :
    (splitlines_raw delim data).flatten = data :=
  splitlines_go_flatten delim data.length data

theorem extract_go_flatten (delim : Bytes) :
    ∀ fuel buffer,
      (extract_go delim fuel buffer).1.flatten ++ (extract_go delim fuel buffer).2
        = buffer := by
  intro fuel
  induction fuel with
  | zero => intro buffer; simp [extract_go]
  | succ fuel ih =>
    intro buffer
    cases hb : bfind buffer delim with
    | none => simp only [extract_go, hb]; simp
    | some i =>
      simp only [extract_go, hb, List.flatten_cons, List.append_assoc]
      rw [ih, List.take_append_drop]

theorem extract_segs_flatten (delim buffer : Bytes) :
    (extract_segs delim buffer).1.flatten ++ (extract_segs delim buffer).2 = buffer :=
  extract_go_flatten delim buffer.length buffer

theorem extract_go_rem_none {delim : Bytes} (hd : delim ≠ []) :
    ∀ fuel buffer, buffer.length ≤ fuel →
      bfind (extract_go delim fuel buffer).2 delim = none := by
  intro fuel
  induction fuel with
  | zero =>
    intro buffer hf
    have : buffer = [] := List.eq_nil_of_length_eq_zero (by omega)
    subst this
    simp [extract_go, bfind_nil_of_ne hd]
  | succ fuel ih =>
    intro buffer hf
    cases hb : bfind buffer delim with
    | none => simp only [extract_go, hb]
    | some i =>
      have hbound := bfind_some_bound hd hb
      have hdpos : 0 < delim.length := List.length_pos.mpr hd
      simp only [extract_go, hb]
      exact ih (buffer.drop (i + delim.length)) (by simp [List.length_drop]; omega)

theorem extract_segs_rem_none {delim : Bytes} (hd : delim ≠ []) (buffer : Bytes) :
    bfind (extract_segs delim buffer).2 delim = none :=
  extract_go_rem_none hd buffer.length buffer (Nat.le_refl _)


/-! ### Peeling complete segments commutes with appending more input -/

theorem extract_go_peel {delim : Bytes} (hd : delim ≠ []) :
    ∀ fuel b, b.length ≤ fuel → ∀ tail,
      splitlines_raw delim (b ++ tail) =
        (extract_go delim fuel b).1 ++
          splitlines_raw delim ((extract_go delim fuel b).2 ++ tail) := by
  intro fuel
  induction fuel with
  | zero =>
    intro b hf tail
    have : b = [] := List.eq_nil_of_length_eq_zero (by omega)
    subst this
    simp [extract_go]
  | succ fuel ih =>
    intro b hf tail
    cases hb : bfind b delim with
    | none => simp [extract_go, hb]
    | some i =>
      have hbound := bfind_some_bound hd hb
      have hdpos : 0 < delim.length := List.length_pos.mpr hd
      simp only [extract_go, hb]
      rw [splitlines_raw_eq hd, bfind_append_of_some hd hb]
      simp only
      rw [List.take_append_of_le_length (by omega),
        List.drop_append_of_le_length (by omega)]
      rw [ih (b.drop (i + delim.length)) (by simp [List.length_drop]; omega) tail]
      simp

theorem extract_segs_peel {delim : Bytes} (hd : delim ≠ []) (b tail : Bytes) :
    splitlines_raw delim (b ++ tail) =
      (extract_segs delim b).1 ++
        splitlines_raw delim ((extract_segs delim b).2 ++ tail) :=
  extract_go_peel hd b.length b (Nat.le_refl _) tail

theorem splitlines_raw_extract {delim : Bytes} (hd : delim ≠ []) (b : Bytes) :
    splitlines_raw delim b =
      (extract_segs delim b).1 ++
        (if (extract_segs delim b).2 = [] then [] else [(extract_segs delim b).2]) := by
  have h := extract_segs_peel hd b []
  rw [List.append_nil] at h
  rw [h, List.append_nil, splitlines_raw_eq hd, extract_segs_rem_none hd b]

/-! ### The streaming splitter equals the in-memory splitter -/

theorem splitlines_stream_go_eq {delim : Bytes} (hd : delim ≠ [])
    (cm : Option Bytes) (sl st : Bool) :
    ∀ (chunks : List Bytes) (buffer : Bytes),
      (∀ c ∈ chunks, c ≠ []) →
      bfind buffer delim = none →
      splitlines_stream_go delim cm sl st buffer chunks =
        splitlines_list delim cm sl st (buffer ++ chunks.flatten) := by
  intro chunks
  induction chunks with
  | nil =>
    intro buffer _ hbuf
    simp only [splitlines_stream_go, List.flatten_nil, List.append_nil]
    unfold splitlines_list finalizeBuf
    rw [splitlines_raw_eq hd, hbuf]
    by_cases h : buffer = []
    · simp [h]
    · simp only [if_neg h]
      cases hp : process_line delim cm sl st buffer <;> simp [hp]
  | cons c rest ih =>
    intro buffer hne hbuf
    have hc : c ≠ [] := hne c (by simp)
    simp only [splitlines_stream_go, if_neg hc]
    rw [ih (extract_segs delim (buffer ++ c)).2
      (fun x hx => hne x (by simp [hx]))
      (extract_segs_rem_none hd (buffer ++ c))]
    unfold splitlines_list
    rw [List.flatten_cons, show buffer ++ (c ++ rest.flatten) = (buffer ++ c) ++ rest.flatten
      from (List.append_assoc ..).symm]
    rw [extract_segs_peel hd (buffer ++ c) rest.flatten]
    rw [List.filterMap_append]

/-! ### `process_line` facts -/

theorem process_line_id (delim : Bytes) (line : Bytes) :
    process_line delim none false false line = some line := rfl

theorem process_line_some_nil {delim : Bytes} {cm : Option Bytes} {sl st : Bool}
    {line : Bytes} (h : process_line delim cm sl st line = some []) : line = [] := by
  unfold process_line at h
  simp only [] at h
  split at h
  · exact Option.noConfusion h
  · split at h
    · exact Option.noConfusion h
    · split at h
      · exact Option.noConfusion h
      · rename_i hst hsl hcm
        have hl3 := Option.some_inj.mp h
        have hst' : st = false := by
          by_contra hc
          exact hst ⟨by simpa using hc, hl3⟩
        have hsl' : sl = false := by
          by_contra hc
          exact hsl ⟨by simpa using hc, hl3⟩
        have hcm' : cmHitB cm line = false := by
          by_contra hc
          exact hcm ⟨by simpa using hc, hl3⟩
        rw [hst', hsl'] at hl3
        simp [trail_stage, lead_stage] at hl3
        simp [comment_stage, hcm'] at hl3
        exact hl3

theorem process_line_ne_nil {delim : Bytes} {cm : Option Bytes} {sl st : Bool}
    {line out : Bytes} (hline : line ≠ [])
    (h : process_line delim cm sl st line = some out) : out ≠ [] := by
  intro hout
  subst hout
  exact hline (process_line_some_nil h)

/-! ### Chunking -/

theorem chunksOf_go_flatten (size : Nat) :
    ∀ fuel data, (chunksOf_go size fuel data).flatten = data := by
  intro fuel
  induction fuel with
  | zero =>
    intro data
    by_cases h : data = [] <;> simp [chunksOf_go, h]
  | succ fuel ih =>
    intro data
    by_cases h : data = [] <;> simp [chunksOf_go, h, ih, List.take_append_drop]

theorem chunksOf_flatten (size : Nat) (data : Bytes) :
    (chunksOf size data).flatten = data :=
  chunksOf_go_flatten size data.length data

theorem chunksOf_go_ne_nil {size : Nat} (hs : 0 < size) :
    ∀ fuel data c, c ∈ chunksOf_go size fuel data → c ≠ [] := by
  intro fuel
  induction fuel with
  | zero =>
    intro data c hc
    by_cases h : data = []
    · simp [chunksOf_go, h] at hc
    · simp [chunksOf_go, h] at hc
      subst hc
      exact h
  | succ fuel ih =>
    intro data c hc
    by_cases h : data = []
    · simp [chunksOf_go, h] at hc
    · simp only [chunksOf_go, if_neg h, List.mem_cons] at hc
      rcases hc with hc | hc
      · subst hc
        intro htake
        rcases List.take_eq_nil_iff.mp htake with h1 | h1
        all_goals first
        | exact h h1
        | omega
      · exact ih (data.drop size) c hc


theorem filterMap_process_line_id (delim : Bytes) (l : List Bytes) :
    l.filterMap (process_line delim none false false) = l := by
  induction l with
  | nil => rfl
  | cons a l ih => simp [List.filterMap_cons, process_line_id, ih]

/-! ### Claim theorems -/

/-- Claim C2: with no comment marker and no whitespace stripping,
concatenating all segments produced by `split` reconstructs the input
exactly, and the sum of the segment lengths equals the input length — both
for an in-memory byte buffer and for a chunked stream. -/
theorem c2_split_roundtrip (delim data : Bytes) (chunks : List Bytes)
    (hd : delim ≠ []) (hchunks : ∀ c ∈ chunks, c ≠ []) :
    (splitlines_bytes delim none false false data =
        .ok (splitlines_list delim none false false data)
      ∧ (splitlines_list delim none false false data).flatten = data
      ∧ ((splitlines_list delim none false false data).map List.length).sum
          = data.length)
    ∧ (splitlines_bytes_stream delim none false false chunks =
        .ok (splitlines_stream_go delim none false false [] chunks)
      ∧ (splitlines_stream_go delim none false false [] chunks).flatten
          = chunks.flatten
      ∧ ((splitlines_stream_go delim none false false [] chunks).map List.length).sum
          = chunks.flatten.length) := by
  have hlist : splitlines_list delim none false false data = splitlines_raw delim data := by
    unfold splitlines_list
    exact filterMap_process_line_id ..
  have hstream : splitlines_stream_go delim none false false [] chunks
      = splitlines_raw delim chunks.flatten := by
    rw [splitlines_stream_go_eq hd none false false chunks [] hchunks (bfind_nil_of_ne hd)]
    unfold splitlines_list
    rw [List.nil_append]
    exact filterMap_process_line_id ..
  refine ⟨⟨?_, ?_, ?_⟩, ?_, ?_, ?_⟩
  · simp [splitlines_bytes, splitlines_validate, hd]
  · rw [hlist, splitlines_raw_flatten]
  · rw [hlist, ← List.length_flatten, splitlines_raw_flatten]
  · simp [splitlines_bytes_stream, splitlines_validate, hd]
  · rw [hstream, splitlines_raw_flatten]
  · rw [hstream, ← List.length_flatten, splitlines_raw_flatten]

/-- Witness for C2 at delimiter `b"\n"`, buffer `b"a\nb"` and the same
input chunked as `[b"a", b"\nb"]`. -/
theorem c2_split_roundtrip_witness :
    ([10] : Bytes) ≠ [] ∧
    ((splitlines_bytes [10] none false false [97, 10, 98] =
        .ok (splitlines_list [10] none false false [97, 10, 98])
      ∧ (splitlines_list [10] none false false [97, 10, 98]).flatten = [97, 10, 98]
      ∧ ((splitlines_list [10] none false false [97, 10, 98]).map List.length).sum
          = ([97, 10, 98] : Bytes).length)
    ∧ (splitlines_bytes_stream [10] none false false [[97], [10, 98]] =
        .ok (splitlines_stream_go [10] none false false [] [[97], [10, 98]])
      ∧ (splitlines_stream_go [10] none false false [] [[97], [10, 98]]).flatten
          = ([[97], [10, 98]] : List Bytes).flatten
      ∧ ((splitlines_stream_go [10] none false false [] [[97], [10, 98]]).map List.length).sum
          = ([[97], [10, 98]] : List Bytes).flatten.length)) :=
  ⟨by decide, c2_split_roundtrip [10] [97, 10, 98] [[97], [10, 98]] (by decide) (by decide)⟩

/-- Claim C3: for a file holding `b"prefix\nTARGET\nsuffix\n"`, a
binary-mode unique append of `b"TARGET"` (no line delimiter) is skipped
with 0 bytes written, while a line-mode unique append of `b"TARGET"` with
delimiter `b"\n"` and no stripping appends the payload, because the stored
segment is `b"TARGET\n"`.  Argument order of `EnsureArgs`: payload,
unique_bytes, create_if_missing, make_parents, line_ending, comment_marker,
ignore_leading_whitespace, ignore_trailing_whitespace. -/
theorem c3_binary_vs_line_mode :
    ensure_bytes_present
        ⟨[84, 65, 82, 71, 69, 84], true, true, false, none, none, false, false⟩
        [112, 114, 101, 102, 105, 120, 10, 84, 65, 82, 71, 69, 84, 10,
          115, 117, 102, 102, 105, 120, 10]
      = .ok [112, 114, 101, 102, 105, 120, 10, 84, 65, 82, 71, 69, 84, 10,
          115, 117, 102, 102, 105, 120, 10] 0
    ∧ ensure_bytes_present
        ⟨[84, 65, 82, 71, 69, 84], true, true, false, some [10], none, false, false⟩
        [112, 114, 101, 102, 105, 120, 10, 84, 65, 82, 71, 69, 84, 10,
          115, 117, 102, 102, 105, 120, 10]
      = .ok [112, 114, 101, 102, 105, 120, 10, 84, 65, 82, 71, 69, 84, 10,
          115, 117, 102, 102, 105, 120, 10, 84, 65, 82, 71, 69, 84] 6 := by
  decide

/-- Claim C9: splitting `b"   #foo\n"` with delimiter `b"\n"`, comment
marker `b"#"` and leading-whitespace stripping yields exactly `[b"\n"]`. -/
theorem c9_comment_whitespace_edge :
    splitlines_bytes [10] (some [35]) true false
      [32, 32, 32, 35, 102, 111, 111, 10] = .ok [[10]] := by
  decide

/-- Counterexample to claim C1 as stated: with payload `b"x"`, delimiter
`b"\n"`, no marker and no stripping, on a target holding `b"ab"` (no
trailing delimiter) the first unique append writes, and the second call
writes again — two calls leave `b"abxx"`, one call leaves `b"abx"`. -/
theorem c1_claim_counterexample :
    ensure_bytes_present ⟨[120], true, true, false, some [10], none, false, false⟩ [97, 98]
      = .ok [97, 98, 120] 1
    ∧ ensure_bytes_present ⟨[120], true, true, false, some [10], none, false, false⟩ [97, 98, 120]
      = .ok [97, 98, 120, 120] 1
    ∧ ([97, 98, 120, 120] : Bytes) ≠ [97, 98, 120] := by
  decide

/-- Counterexample to claim C4 as stated: with
`strip_trailing_whitespace = true` and whitespace delimiter `b"\n"`, the
trailing delimiter-less input `b"a"` is yielded as `b"a\n"`, a trailing
segment that DOES end with the delimiter (the source re-appends the
delimiter after `rstrip` whenever the delimiter is a substring of the
ASCII whitespace bytes). -/
theorem c4_claim_counterexample :
    splitlines_bytes [10] none false true [97] = .ok [[97, 10]]
    ∧ endsWithB [97, 10] [10] = true := by
  decide

/-- Counterexample to claim C5 as stated: a binary-mode unique append
(`unique_bytes = true`, `line_ending = None`) with `comment_marker = b"#"`
supplied is NOT rejected: the call performs the binary substring check,
ignores the marker, and appends. -/
theorem c5_claim_counterexample :
    ensure_bytes_present ⟨[98], true, true, false, none, some [35], false, false⟩ [97]
      = .ok [97, 98] 1
    ∧ isPreIOError
        (ensure_bytes_present ⟨[98], true, true, false, none, some [35], false, false⟩ [97])
      = false := by
  decide

/-- Counterexample to claim C10 as stated: a comment marker strictly
containing the delimiter (`comment_marker = b"#\n#"`, `line_ending =
b"\n"`) passes the pre-I/O validation; the error is raised only by the
splitter inside the locked section (an `ioError`, not a `preIOError`),
i.e. after the lock file and the target file have been opened. -/
theorem c10_claim_counterexample :
    ensure_bytes_present
        ⟨[97], true, true, false, some [10], some [35, 10, 35], false, false⟩ []
      = .ioError "delim must not be contained in comment_marker"
    ∧ isPreIOError
        (ensure_bytes_present
          ⟨[97], true, true, false, some [10], some [35, 10, 35], false, false⟩ [])
      = false := by
  decide

/-- Claim C6 (code bug): on the cleanup path, when `fh.close()` fails the
source only prints a warning — no lower-level `os.close` escalation is
performed, although the function docstring promises "Escalates via
os.close(fileno()) if necessary". -/
theorem c6_cleanup_no_escalation :
    cleanup_trace false false true
      = [CleanupAction.unlockCall, CleanupAction.closeCall, CleanupAction.cleanupWarning]
    ∧ CleanupAction.descriptorCloseCall ∉ cleanup_trace false false true := by
  decide

/-- Claim C7 (code bug): the named-lock acquisition propagates EINTR:
a single signal interruption of the bare `fcntl.flock(lock_fd, LOCK_EX)`
(source line 570) surfaces to the caller, while the explicitly wrapped
call sites (`open_eintr_safe`, `fsync_eintr_safe`, the target-handle
`flock` loop) absorb any number of interruptions. -/
theorem c7_named_lock_eintr_surfaces :
    named_lock_acquire 0 1 = SysResult.eintrRaised
    ∧ retry_loop 1 = SysResult.ok
    ∧ retry_loop 5 = SysResult.ok := by
  decide


/-! ### Validation chain facts -/

theorem ensure_validate_none_facts {a : EnsureArgs}
    (h : ensure_validate a = none) :
    ¬(a.bytes_payload = []) ∧ ¬(a.line_ending = some [])
    ∧ ¬(a.line_ending.isSome ∧ a.unique_bytes = false)
    ∧ ¬(a.comment_marker = some [])
    ∧ ¬(a.comment_marker.isSome ∧ a.unique_bytes = false)
    ∧ ¬(a.ignore_leading_whitespace ∧ a.unique_bytes = false)
    ∧ ¬(a.ignore_trailing_whitespace ∧ a.unique_bytes = false)
    ∧ ¬(a.make_parents ∧ a.create_if_missing = false) := by
  unfold ensure_validate at h
  repeat' split at h
  all_goals
    first
    | exact Option.noConfusion h
    | (refine ⟨?_, ?_, ?_, ?_, ?_, ?_, ?_, ?_⟩ <;> assumption)

theorem isPreIO_of_validate_ne_none {a : EnsureArgs} {content : Bytes}
    (h : ensure_validate a ≠ none) :
    isPreIOError (ensure_bytes_present a content) = true := by
  unfold ensure_bytes_present
  cases hv : ensure_validate a with
  | some e => rfl
  | none => exact absurd hv h

/-- Amended claim C5: supplying `comment_marker` (any non-empty marker),
`ignore_leading_whitespace` or `ignore_trailing_whitespace` together with
`unique_bytes = true` and `line_ending = None` is accepted, and the options
are silently ignored: the call behaves exactly as the same call without
them (binary substring mode), as the source docstring states. -/
theorem c5_binary_mode_options_ignored (payload content : Bytes)
    (create mp : Bool) (cm : Option Bytes) (il it : Bool)
    (hcm : cm ≠ some []) :
    ensure_bytes_present ⟨payload, true, create, mp, none, cm, il, it⟩ content
      = ensure_bytes_present ⟨payload, true, create, mp, none, none, false, false⟩ content := by
  have hv : ensure_validate ⟨payload, true, create, mp, none, cm, il, it⟩
      = ensure_validate ⟨payload, true, create, mp, none, none, false, false⟩ := by
    simp [ensure_validate, hcm]
  unfold ensure_bytes_present
  rw [hv]
  cases hve : ensure_validate ⟨payload, true, create, mp, none, none, false, false⟩ with
  | some e => rfl
  | none =>
    have hm1 : marker_matches_delim ⟨payload, true, create, mp, none, cm, il, it⟩ = false := by
      unfold marker_matches_delim
      cases cm <;> rfl
    rw [hm1]
    rfl

/-- Witness for the amended C5: a binary-mode unique append with marker
`b"#"` and both ignore flags set behaves exactly like the plain one. -/
theorem c5_binary_mode_options_ignored_witness :
    (some [35] : Option Bytes) ≠ some [] ∧
    ensure_bytes_present ⟨[98], true, true, false, none, some [35], true, true⟩ [97]
      = ensure_bytes_present ⟨[98], true, true, false, none, none, false, false⟩ [97] :=
  ⟨by decide,
    c5_binary_mode_options_ignored [98] [97] true false (some [35]) true true (by decide)⟩


/-- Amended claim C10: the configuration errors of `append` are detected
before any I/O — empty payload, empty delimiter, empty comment marker,
`make_parents` without `create_if_missing`, line-mode options without
`unique_bytes`, and a comment marker equal to the delimiter — with ONE
exception: a comment marker strictly containing the delimiter passes the
pre-I/O validation and is raised only when the splitter runs inside the
locked section; it is still surfaced to the caller (as an error outcome)
and never retried.  `EnsureArgs` field order: payload, unique_bytes,
create_if_missing, make_parents, line_ending, comment_marker,
ignore_leading_whitespace, ignore_trailing_whitespace. -/
theorem c10_validation_phases (payload l m content : Bytes)
    (u create mp il it : Bool)
    (hpay : payload ≠ []) (hl : l ≠ []) (hm : m ≠ []) (hml : m ≠ l)
    (hsub : substrB l m = true) (hmp : ¬(mp = true ∧ create = false)) :
    (isPreIOError (ensure_bytes_present ⟨[], u, create, mp, some l, some m, il, it⟩ content) = true)
    ∧ (isPreIOError (ensure_bytes_present ⟨payload, u, create, mp, some [], some m, il, it⟩ content) = true)
    ∧ (isPreIOError (ensure_bytes_present ⟨payload, u, create, mp, some l, some [], il, it⟩ content) = true)
    ∧ (isPreIOError (ensure_bytes_present ⟨payload, u, false, true, some l, some m, il, it⟩ content) = true)
    ∧ (isPreIOError (ensure_bytes_present ⟨payload, false, create, mp, some l, some m, il, it⟩ content) = true)
    ∧ (isPreIOError (ensure_bytes_present ⟨payload, u, create, mp, some m, some m, il, it⟩ content) = true)
    ∧ (ensure_bytes_present ⟨payload, true, create, mp, some l, some m, false, false⟩ content
        = .ioError "delim must not be contained in comment_marker") := by
  refine ⟨?_, ?_, ?_, ?_, ?_, ?_, ?_⟩
  · apply isPreIO_of_validate_ne_none
    intro hnone
    exact (ensure_validate_none_facts hnone).1 rfl
  · apply isPreIO_of_validate_ne_none
    intro hnone
    exact (ensure_validate_none_facts hnone).2.1 rfl
  · apply isPreIO_of_validate_ne_none
    intro hnone
    exact (ensure_validate_none_facts hnone).2.2.2.1 rfl
  · apply isPreIO_of_validate_ne_none
    intro hnone
    exact (ensure_validate_none_facts hnone).2.2.2.2.2.2.2 ⟨rfl, rfl⟩
  · apply isPreIO_of_validate_ne_none
    intro hnone
    exact (ensure_validate_none_facts hnone).2.2.1 ⟨rfl, rfl⟩
  · unfold ensure_bytes_present
    cases hv : ensure_validate ⟨payload, u, create, mp, some m, some m, il, it⟩ with
    | some e => rfl
    | none =>
      have hmm : marker_matches_delim ⟨payload, u, create, mp, some m, some m, il, it⟩ = true := by
        simp [marker_matches_delim]
      rw [hmm]
      rfl
  · have hval : ensure_validate ⟨payload, true, create, mp, some l, some m, false, false⟩ = none := by
      simp [ensure_validate, hpay, hl, hm]
      intro h1
      by_contra h2
      exact hmp ⟨h1, by simpa using h2⟩
    have hmm : marker_matches_delim ⟨payload, true, create, mp, some l, some m, false, false⟩ = false := by
      simp [marker_matches_delim]
      intro h
      exact absurd h hml
    unfold ensure_bytes_present
    rw [hval, hmm]
    simp only [Bool.false_eq_true, if_false, if_true]
    have hsv : splitlines_validate l (some m)
        = some "delim must not be contained in comment_marker" := by
      simp [splitlines_validate, hl, hm, hml, hsub]
    unfold splitlines_bytes_stream
    rw [hsv]


/-- Witness for the amended C10 at payload `b"a"`, delimiter `b"\n"`,
marker `b"#\n#"`, empty target content. -/
theorem c10_validation_phases_witness :
    (([97] : Bytes) ≠ [] ∧ ([10] : Bytes) ≠ [] ∧ ([35, 10, 35] : Bytes) ≠ []
      ∧ ([35, 10, 35] : Bytes) ≠ [10] ∧ substrB [10] [35, 10, 35] = true
      ∧ ¬(false = true ∧ true = false)) ∧
    ((isPreIOError (ensure_bytes_present ⟨[], true, true, false, some [10], some [35, 10, 35], false, false⟩ []) = true)
    ∧ (isPreIOError (ensure_bytes_present ⟨[97], true, true, false, some [], some [35, 10, 35], false, false⟩ []) = true)
    ∧ (isPreIOError (ensure_bytes_present ⟨[97], true, true, false, some [10], some [], false, false⟩ []) = true)
    ∧ (isPreIOError (ensure_bytes_present ⟨[97], true, false, true, some [10], some [35, 10, 35], false, false⟩ []) = true)
    ∧ (isPreIOError (ensure_bytes_present ⟨[97], false, true, false, some [10], some [35, 10, 35], false, false⟩ []) = true)
    ∧ (isPreIOError (ensure_bytes_present ⟨[97], true, true, false, some [35, 10, 35], some [35, 10, 35], false, false⟩ []) = true)
    ∧ (ensure_bytes_present ⟨[97], true, true, false, some [10], some [35, 10, 35], false, false⟩ []
        = .ioError "delim must not be contained in comment_marker")) :=
  ⟨⟨by decide, by decide, by decide, by decide, by decide, by decide⟩,
    c10_validation_phases [97] [10] [35, 10, 35] [] true true false false false
      (by decide) (by decide) (by decide) (by decide) (by decide) (by decide)⟩


/-! ### Appending to delimiter-terminated content splits cleanly -/

theorem splitlines_raw_append {delim : Bytes} (hd : delim ≠ []) :
    ∀ a b : Bytes, (∀ s ∈ splitlines_raw delim a, endsWithB s delim = true) →
      splitlines_raw delim (a ++ b) = splitlines_raw delim a ++ splitlines_raw delim b := by
  have H : ∀ n (a b : Bytes), a.length ≤ n →
      (∀ s ∈ splitlines_raw delim a, endsWithB s delim = true) →
      splitlines_raw delim (a ++ b)
        = splitlines_raw delim a ++ splitlines_raw delim b := by
    intro n
    induction n with
    | zero =>
      intro a b ha _
      have : a = [] := List.eq_nil_of_length_eq_zero (by omega)
      subst this
      rw [List.nil_append, splitlines_raw_eq hd ([] : Bytes), bfind_nil_of_ne hd]
      simp
    | succ n ih =>
      intro a b ha hterm
      cases hb0 : bfind a delim with
      | none =>
        by_cases haz : a = []
        · subst haz
          rw [List.nil_append, splitlines_raw_eq hd ([] : Bytes), bfind_nil_of_ne hd]
          simp
        · have hsa : splitlines_raw delim a = [a] := by
            rw [splitlines_raw_eq hd a, hb0]
            simp [haz]
          have he : endsWithB a delim = true := hterm a (by rw [hsa]; simp)
          have hocc := endsWithB_occAt he
          exact absurd hocc (bfind_eq_none_iff.mp hb0 _)
      | some i =>
        have hbound := bfind_some_bound hd hb0
        have hdpos : 0 < delim.length := List.length_pos.mpr hd
        have heq : splitlines_raw delim a
            = a.take (i + delim.length) :: splitlines_raw delim (a.drop (i + delim.length)) := by
          rw [splitlines_raw_eq hd a, hb0]
        have hterm2 : ∀ s ∈ splitlines_raw delim (a.drop (i + delim.length)),
            endsWithB s delim = true := by
          intro s hs
          exact hterm s (by rw [heq]; exact List.mem_cons_of_mem _ hs)
        have step : splitlines_raw delim (a ++ b)
            = a.take (i + delim.length)
              :: splitlines_raw delim (a.drop (i + delim.length) ++ b) := by
          rw [splitlines_raw_eq hd (a ++ b), bfind_append_of_some hd hb0]
          simp only
          rw [List.take_append_of_le_length (by omega),
            List.drop_append_of_le_length (by omega)]
        rw [step, ih (a.drop (i + delim.length)) b (by simp [List.length_drop]; omega) hterm2,
          heq]
        simp
  exact fun a b h => H a.length a b (Nat.le_refl _) h

/-- Evaluation of the line-mode dedup-and-append decision of
`ensure_bytes_present` on the standard argument shape: skip when the
payload is a stored segment, append otherwise. -/
theorem ensure_line_mode_eval {delim payload : Bytes} (hd : delim ≠ [])
    (hpay : payload ≠ []) (c : Bytes) :
    ensure_bytes_present ⟨payload, true, true, false, some delim, none, false, false⟩ c
      = if payload ∈ splitlines_raw delim c then .ok c 0
        else .ok (c ++ payload) payload.length := by
  have hval : ensure_validate ⟨payload, true, true, false, some delim, none, false, false⟩
      = none := by
    simp [ensure_validate, hpay, hd]
  unfold ensure_bytes_present
  rw [hval]
  have hmm : marker_matches_delim ⟨payload, true, true, false, some delim, none, false, false⟩
      = false := rfl
  rw [hmm]
  simp only [Bool.false_eq_true, if_false]
  have hsv : splitlines_validate delim none = none := by
    simp [splitlines_validate, hd]
  unfold splitlines_bytes_stream
  rw [hsv]
  simp only
  rw [splitlines_stream_go_eq hd none false false (chunksOf 8192 c) []
    (fun x hx => chunksOf_go_ne_nil (by omega) c.length c x hx)
    (bfind_nil_of_ne hd)]
  unfold splitlines_list
  rw [List.nil_append, chunksOf_flatten, filterMap_process_line_id]
  simp

/-- Amended claim C1: with no comment marker and no whitespace stripping,
if every stored segment of the target's content is delimiter-terminated
and the payload splits as exactly one segment, then a unique append is
idempotent: the second call leaves the content produced by the first call
unchanged and reports 0 bytes written (and the first call either skipped
or wrote the whole payload). -/
theorem c1_append_unique_idempotent (delim payload content : Bytes)
    (hd : delim ≠ []) (hpay : payload ≠ [])
    (hterm : ∀ s ∈ splitlines_raw delim content, endsWithB s delim = true)
    (hsingle : splitlines_raw delim payload = [payload]) :
    (ensure_bytes_present ⟨payload, true, true, false, some delim, none, false, false⟩ content
        = .ok (after_ensure ⟨payload, true, true, false, some delim, none, false, false⟩ content) 0
      ∨ ensure_bytes_present ⟨payload, true, true, false, some delim, none, false, false⟩ content
        = .ok (after_ensure ⟨payload, true, true, false, some delim, none, false, false⟩ content)
            payload.length)
    ∧ ensure_bytes_present ⟨payload, true, true, false, some delim, none, false, false⟩
        (after_ensure ⟨payload, true, true, false, some delim, none, false, false⟩ content)
      = .ok (after_ensure ⟨payload, true, true, false, some delim, none, false, false⟩ content)
          0 := by
  by_cases hmem : payload ∈ splitlines_raw delim content
  · have h1 : ensure_bytes_present
        ⟨payload, true, true, false, some delim, none, false, false⟩ content = .ok content 0 := by
      rw [ensure_line_mode_eval hd hpay content, if_pos hmem]
    have hafter : after_ensure ⟨payload, true, true, false, some delim, none, false, false⟩ content
        = content := by
      unfold after_ensure outcome_content
      rw [h1]
    rw [hafter]
    exact ⟨Or.inl h1, h1⟩
  · have h1 : ensure_bytes_present
        ⟨payload, true, true, false, some delim, none, false, false⟩ content
        = .ok (content ++ payload) payload.length := by
      rw [ensure_line_mode_eval hd hpay content, if_neg hmem]
    have hafter : after_ensure ⟨payload, true, true, false, some delim, none, false, false⟩ content
        = content ++ payload := by
      unfold after_ensure outcome_content
      rw [h1]
    have hmem2 : payload ∈ splitlines_raw delim (content ++ payload) := by
      rw [splitlines_raw_append hd content payload hterm, hsingle]
      simp
    rw [hafter]
    refine ⟨Or.inr h1, ?_⟩
    rw [ensure_line_mode_eval hd hpay (content ++ payload), if_pos hmem2]

/-- Witness for the amended C1 at delimiter `b"\n"`, payload `b"x\n"`,
existing content `b"a\n"`. -/
theorem c1_append_unique_idempotent_witness :
    (([10] : Bytes) ≠ [] ∧ ([120, 10] : Bytes) ≠ []
      ∧ splitlines_raw [10] [120, 10] = [[120, 10]]) ∧
    ((ensure_bytes_present ⟨[120, 10], true, true, false, some [10], none, false, false⟩ [97, 10]
        = .ok (after_ensure ⟨[120, 10], true, true, false, some [10], none, false, false⟩ [97, 10]) 0
      ∨ ensure_bytes_present ⟨[120, 10], true, true, false, some [10], none, false, false⟩ [97, 10]
        = .ok (after_ensure ⟨[120, 10], true, true, false, some [10], none, false, false⟩ [97, 10])
            ([120, 10] : Bytes).length)
    ∧ ensure_bytes_present ⟨[120, 10], true, true, false, some [10], none, false, false⟩
        (after_ensure ⟨[120, 10], true, true, false, some [10], none, false, false⟩ [97, 10])
      = .ok (after_ensure ⟨[120, 10], true, true, false, some [10], none, false, false⟩ [97, 10])
          0) :=
  ⟨⟨by decide, by decide, by decide⟩,
    c1_append_unique_idempotent [10] [120, 10] [97, 10]
      (by decide) (by decide) (by decide) (by decide)⟩


/-! ### Facts about the trailing remainder -/

theorem splitlines_go_ne_nil {delim : Bytes} (hd : delim ≠ []) :
    ∀ fuel (data s : Bytes), s ∈ splitlines_go delim fuel data → s ≠ [] := by
  intro fuel
  induction fuel with
  | zero =>
    intro data s hs
    by_cases h : data = []
    · simp [splitlines_go, h] at hs
    · simp [splitlines_go, h] at hs
      subst hs
      exact h
  | succ fuel ih =>
    intro data s hs
    cases hb : bfind data delim with
    | none =>
      simp only [splitlines_go, hb] at hs
      by_cases h : data = []
      · simp [h] at hs
      · simp [h] at hs
        subst hs
        exact h
    | some i =>
      have hbound := bfind_some_bound hd hb
      have hdpos : 0 < delim.length := List.length_pos.mpr hd
      simp only [splitlines_go, hb, List.mem_cons] at hs
      rcases hs with hs | hs
      · subst hs
        intro htake
        have hdata_ne : data ≠ [] := by
          intro hz
          rw [hz] at hbound
          simp only [List.length_nil] at hbound
          omega
        rcases List.take_eq_nil_iff.mp htake with h1 | h1
        all_goals first
          | exact hdata_ne h1
          | omega
      · exact ih _ s hs

theorem splitlines_raw_ne_nil {delim : Bytes} (hd : delim ≠ []) (data s : Bytes)
    (hs : s ∈ splitlines_raw delim data) : s ≠ [] :=
  splitlines_go_ne_nil hd data.length data s hs

theorem process_line_some_eq {delim : Bytes} {cm : Option Bytes} {sl st : Bool}
    {line out : Bytes} (h : process_line delim cm sl st line = some out) :
    out = trail_stage delim st (lead_stage delim sl line (comment_stage delim cm line)) := by
  unfold process_line at h
  simp only [] at h
  split at h
  · exact Option.noConfusion h
  · split at h
    · exact Option.noConfusion h
    · split at h
      · exact Option.noConfusion h
      · exact (Option.some_inj.mp h).symm

theorem comment_stage_take {delim line : Bytes} (cm : Option Bytes)
    (hre : endsWithB line delim = false) :
    ∃ k, comment_stage delim cm line = line.take k := by
  by_cases hhit : cmHitB cm line = true
  · cases cm with
    | none => simp [cmHitB] at hhit
    | some m =>
      cases hb : bfind line m with
      | none => exact ⟨line.length, by simp [comment_stage, hhit, hre, beforeMarker, hb]⟩
      | some i => exact ⟨i, by simp [comment_stage, hhit, hre, beforeMarker, hb]⟩
  · exact ⟨line.length, by simp [comment_stage, hhit]⟩

theorem lead_stage_drop {delim line : Bytes} (sl : Bool) (l1 : Bytes)
    (hre : endsWithB line delim = false) :
    ∃ j, lead_stage delim sl line l1 = l1.drop j := by
  cases sl with
  | false => exact ⟨0, rfl⟩
  | true =>
    obtain ⟨j, hj⟩ := dropWhile_eq_drop isSpaceByte l1
    exact ⟨j, by simp [lead_stage, hre, lstripB, hj]⟩

theorem rem_not_endsWith {rem d : Bytes} (h : bfind rem d = none) :
    endsWithB rem d = false := by
  by_contra hc
  have he : endsWithB rem d = true := by simpa using hc
  exact absurd (endsWithB_occAt he) (bfind_eq_none_iff.mp h _)

theorem ends_take_drop_occ {l d : Bytes} {k j : Nat}
    (h : endsWithB ((l.take k).drop j) d = true) : ∃ p, occAt d l p := by
  have h1 := endsWithB_occAt h
  have h2 := occAt_of_drop h1
  exact ⟨_, occAt_of_take h2⟩

/-- Amended claim C4: for every input and non-empty delimiter, (i) no empty
segment is ever yielded under any settings — in particular no artificial
trailing empty segment when the input ends exactly on a delimiter; (ii)
with `strip_trailing_whitespace = false` the output is the processed
complete segments followed by the processed trailing (delimiter-less)
remainder, which is dropped exactly when processing reduces it to nothing;
and (iii) with `strip_trailing_whitespace = false` a processed trailing
remainder never ends with the delimiter.  (When
`strip_trailing_whitespace = true` and the delimiter is ASCII whitespace
the source re-appends the delimiter to the trailing segment; see the
counterexample.) -/
theorem c4_trailing_segment (delim data : Bytes) (cm : Option Bytes) (sl : Bool)
    (hd : delim ≠ []) :
    (∀ (st : Bool) (s : Bytes), s ∈ splitlines_list delim cm sl st data → s ≠ [])
    ∧ (splitlines_list delim cm sl false data
        = (extract_segs delim data).1.filterMap (process_line delim cm sl false)
          ++ (if (extract_segs delim data).2 = [] then []
              else (process_line delim cm sl false (extract_segs delim data).2).toList))
    ∧ (∀ s : Bytes, process_line delim cm sl false (extract_segs delim data).2 = some s →
        endsWithB s delim = false) := by
  refine ⟨?_, ?_, ?_⟩
  · intro st s hs
    obtain ⟨seg, hseg, hps⟩ := List.mem_filterMap.mp hs
    exact process_line_ne_nil (splitlines_raw_ne_nil hd data seg hseg) hps
  · unfold splitlines_list
    rw [splitlines_raw_extract hd data, List.filterMap_append]
    congr 1
    by_cases hz : (extract_segs delim data).2 = []
    · simp [hz]
    · simp only [if_neg hz]
      cases hp : process_line delim cm sl false (extract_segs delim data).2 <;> simp [hp]
  · intro s hp
    have hnone := extract_segs_rem_none hd data
    have hre : endsWithB (extract_segs delim data).2 delim = false := rem_not_endsWith hnone
    have hs_eq := process_line_some_eq hp
    rw [show trail_stage delim false
          (lead_stage delim sl (extract_segs delim data).2
            (comment_stage delim cm (extract_segs delim data).2))
        = lead_stage delim sl (extract_segs delim data).2
            (comment_stage delim cm (extract_segs delim data).2) from rfl] at hs_eq
    obtain ⟨k, hk⟩ := comment_stage_take cm hre
    obtain ⟨j, hj⟩ := lead_stage_drop sl (comment_stage delim cm (extract_segs delim data).2) hre
    rw [hj, hk] at hs_eq
    subst hs_eq
    by_contra hc
    have he : endsWithB (((extract_segs delim data).2.take k).drop j) delim = true := by
      simpa using hc
    obtain ⟨p, hocc⟩ := ends_take_drop_occ he
    exact absurd hocc (bfind_eq_none_iff.mp hnone p)

/-- Witness for the amended C4 at delimiter `b"\n"`, data `b"a\nb"`,
no marker, no leading strip: the hypothesis instance and conjunct (ii)
instantiated. -/
theorem c4_trailing_segment_witness :
    ([10] : Bytes) ≠ [] ∧
    splitlines_list [10] none false false [97, 10, 98]
      = (extract_segs [10] [97, 10, 98]).1.filterMap (process_line [10] none false false)
        ++ (if (extract_segs [10] [97, 10, 98]).2 = [] then []
            else (process_line [10] none false false (extract_segs [10] [97, 10, 98]).2).toList) :=
  ⟨by decide, (c4_trailing_segment [10] [97, 10, 98] none false (by decide)).2.1⟩


/-! ### Scanner correctness -/

theorem prev_ite_eq (target consumed : Bytes) :
    (if target.length - 1 = 0 then []
     else consumed.drop (consumed.length - (target.length - 1)))
    = consumed.drop (consumed.length - (target.length - 1)) := by
  split
  · rename_i h
    rw [h, Nat.sub_zero, List.drop_length]
  · rfl

theorem fbois_go_spec {target : Bytes} (ht : target ≠ []) :
    ∀ (chunks : List Bytes) (consumed : Bytes),
      (∀ c ∈ chunks, c ≠ []) →
      (∀ p, ¬ occAt target consumed p) →
      fbois_go target
        (if target.length - 1 = 0 then []
         else consumed.drop (consumed.length - (target.length - 1)))
        (consumed.length : Int) chunks
      = (bfind (consumed ++ chunks.flatten) target).map Int.ofNat := by
  intro chunks
  induction chunks with
  | nil =>
    intro consumed _ hinv
    have hb : bfind consumed target = none := bfind_eq_none_iff.mpr hinv
    simp [fbois_go, hb]
  | cons c rest ih =>
    intro consumed hne hinv
    have hc : c ≠ [] := hne c (by simp)
    have hdt : 0 < target.length := List.length_pos.mpr ht
    rw [prev_ite_eq]
    have hPdef : consumed.drop (consumed.length - (target.length - 1))
        = consumed.drop (consumed.length - (target.length - 1)) := rfl
    simp only [fbois_go, if_neg hc]
    have hPlen : (consumed.drop (consumed.length - (target.length - 1))).length
        = consumed.length - (consumed.length - (target.length - 1)) := by
      simp [List.length_drop]
    have hre : consumed ++ (c :: rest).flatten
        = consumed.take (consumed.length - (target.length - 1))
          ++ ((consumed.drop (consumed.length - (target.length - 1)) ++ c) ++ rest.flatten) := by
      conv_lhs => rw [← List.take_append_drop (consumed.length - (target.length - 1)) consumed]
      simp only [List.flatten_cons, List.append_assoc]
    have htakelen : (consumed.take (consumed.length - (target.length - 1))).length
        = consumed.length - (target.length - 1) := by
      rw [List.length_take]
      omega
    cases hbh : bfind (consumed.drop (consumed.length - (target.length - 1)) ++ c) target with
    | some pos =>
      have hbound := bfind_some_bound ht hbh
      have hocc := (bfind_eq_some_iff.mp hbh).1
      have hmin := (bfind_eq_some_iff.mp hbh).2
      have hfull : bfind (consumed ++ (c :: rest).flatten) target
          = some ((consumed.length - (target.length - 1)) + pos) := by
        apply bfind_eq_some_iff.mpr
        constructor
        · rw [hre]
          have h1 : occAt target
              ((consumed.drop (consumed.length - (target.length - 1)) ++ c) ++ rest.flatten)
              pos := (occAt_append_of_fit hbound).mpr hocc
          have h2 := occAt_append_right
            (x := consumed.take (consumed.length - (target.length - 1))) h1
          rwa [htakelen] at h2
        · intro j hj hoccj
          by_cases hcase : j + target.length ≤ consumed.length
          · exact hinv j ((occAt_append_of_fit hcase).mp hoccj)
          · have hδj : consumed.length - (target.length - 1) ≤ j := by omega
            rw [hre] at hoccj
            have h3 := (occAt_append_right_iff (by rw [htakelen]; omega)).mp hoccj
            rw [htakelen] at h3
            have hfit : (j - (consumed.length - (target.length - 1))) + target.length
                ≤ (consumed.drop (consumed.length - (target.length - 1)) ++ c).length := by
              rw [List.length_append, hPlen]
              rw [List.length_append, hPlen] at hbound
              omega
            have h4 := (occAt_append_of_fit hfit).mp h3
            exact hmin _ (by omega) h4
      rw [hfull]
      simp only [Option.map_some]
      congr 1
      rw [hPlen]
      simp only [Int.ofNat_eq_coe]
      omega
    | none =>
      have hinv1 : ∀ p, ¬ occAt target (consumed ++ c) p := by
        intro p hp
        have hple := occAt_add_length_le ht hp
        rw [List.length_append] at hple
        by_cases hcase : p + target.length ≤ consumed.length
        · exact hinv p ((occAt_append_of_fit hcase).mp hp)
        · have hsplit : consumed ++ c
              = consumed.take (consumed.length - (target.length - 1))
                ++ (consumed.drop (consumed.length - (target.length - 1)) ++ c) := by
            conv_lhs => rw [← List.take_append_drop (consumed.length - (target.length - 1)) consumed]
            rw [List.append_assoc]
          rw [hsplit] at hp
          have h3 := (occAt_append_right_iff (by rw [htakelen]; omega)).mp hp
          exact absurd h3 (bfind_eq_none_iff.mp hbh _)
      have hkey : (if target.length - 1 = 0 then []
          else (consumed.drop (consumed.length - (target.length - 1)) ++ c).drop
            ((consumed.drop (consumed.length - (target.length - 1)) ++ c).length
              - (target.length - 1)))
          = (if target.length - 1 = 0 then []
             else (consumed ++ c).drop ((consumed ++ c).length - (target.length - 1))) := by
        split
        · rfl
        · have hdro : consumed.drop (consumed.length - (target.length - 1)) ++ c
              = (consumed ++ c).drop (consumed.length - (target.length - 1)) := by
            rw [List.drop_append_of_le_length (by omega)]
          rw [hdro, List.drop_drop]
          congr 1
          first
          | omega
          | (simp only [List.length_drop, List.length_append]; omega)
      have hflat : consumed ++ (c :: rest).flatten = (consumed ++ c) ++ rest.flatten := by
        rw [List.flatten_cons, List.append_assoc]
      have hoff : (consumed.length : Int) + c.length = ((consumed ++ c).length : Int) := by
        rw [List.length_append]
        push_cast
        ring
      rw [hkey, hoff, hflat]
      have hne2 : ∀ x ∈ rest, x ≠ [] := fun x hx => hne x (by simp [hx])
      exact ih (consumed ++ c) hne2 hinv1

/-- Claim C8: `find_bytes_offset_in_stream`, reading the stream in chunks
of any positive size, returns exactly the offset of the first occurrence
of a non-empty target in the stream data (occurrences spanning chunk
boundaries included), `none` when the target does not occur, and a
configuration error for an empty target. -/
theorem c8_scanner_correct (target data : Bytes) (size : Nat)
    (ht : target ≠ []) (hs : 0 < size) :
    find_bytes_offset_in_stream target (chunksOf size data)
      = .ok ((bfind data target).map Int.ofNat)
    ∧ find_bytes_offset_in_stream [] (chunksOf size data)
      = .error "Target bytes must not be empty" := by
  constructor
  · unfold find_bytes_offset_in_stream
    rw [if_neg ht]
    congr 1
    have hinv0 : ∀ p, ¬ occAt target ([] : Bytes) p := by
      intro p hp
      unfold occAt at hp
      simp at hp
      exact ht hp
    have h0 := fbois_go_spec ht (chunksOf size data) []
      (fun x hx => chunksOf_go_ne_nil hs data.length data x hx) hinv0
    have hprev : (if target.length - 1 = 0 then []
        else ([] : Bytes).drop (([] : Bytes).length - (target.length - 1))) = ([] : Bytes) := by
      split <;> simp
    rw [hprev] at h0
    simp only [List.length_nil, Nat.cast_zero, List.nil_append] at h0
    rw [h0, chunksOf_flatten]
  · rfl

/-- Witness for C8: target `b"\x00\x01"` split across two one-byte chunks
of `b"\x02\x00\x01\x03"` is found at offset 1. -/
theorem c8_scanner_correct_witness :
    (([0, 1] : Bytes) ≠ [] ∧ 0 < 1) ∧
    (find_bytes_offset_in_stream [0, 1] (chunksOf 1 [2, 0, 1, 3])
      = .ok ((bfind [2, 0, 1, 3] [0, 1]).map Int.ofNat)
    ∧ find_bytes_offset_in_stream [] (chunksOf 1 [2, 0, 1, 3])
      = .error "Target bytes must not be empty") :=
  ⟨⟨by decide, by decide⟩, c8_scanner_correct [0, 1] [2, 0, 1, 3] 1 (by decide) (by decide)⟩

end Filetool
